import Mathlib

/-!
# Verification of the rc-file option processor (`src/main/cpp/option_processor.cc`)

This file gives a shallow embedding of the option processor: the recursive
rc-file parser (`OptionProcessor::RcFile::Parse`) with import-cycle detection,
the startup-option resolution (`OptionProcessor::ParseStartupOptions`), the
candidate-path deduplication loop of `OptionProcessor::ParseOptions`, and the
argument-vector assembler (`OptionProcessor::AddRcfileArgsAndOptions`).

External collaborators (file system, workspace layout, startup-option
validator, terminal info, path conversion) and the `blaze_util` string
helpers are not part of the sources; they are modelled from the spec, either
as abstract fields of an `Env` record or as concrete functions whose doc
comments start with `Modelled from the spec:`.

The recursive parser is embedded with an explicit fuel argument so that every
definition is structurally recursive (and hence evaluable by `rfl`/`decide`);
`none` marks fuel exhaustion.  The C++ mutable import stack (`list<string>`
passed by reference) is threaded explicitly: each parsing function returns the
final contents of the stack next to its result, so that push/pop discipline is
itself observable.
-/

namespace OptionProcessor

/-- Exit codes from `blaze_exit_code` used by the option processor
(the spec's enumerated set SUCCESS, BAD_ARGV, INTERNAL_ERROR). -/
inductive ExitCode where
  | success
  | badArgv
  | internalError
deriving DecidableEq

/-- An error outcome: exit code paired with the human-readable error string
(the C++ `string* error` output parameter). -/
abbrev Err := ExitCode × String

/-- `OptionProcessor::RcFile`: filename plus the 0-based index assigned at
creation (`RcFile(const string& filename, int index)`). -/
structure RcFile where
  filename : String
  index : Nat
deriving DecidableEq

/-- `OptionProcessor::RcOption`: provenance index plus the raw option token. -/
structure RcOption where
  rcfile_index : Nat
  option : String
deriving DecidableEq

/-! ## String utilities

The C++ code uses `blaze_util` string helpers whose sources are not part of
this repository; they are modelled from the spec on `List Char`. -/

/-- Recognised control and quoting characters, by code point (tab, line
feed, carriage return, the backslash, the single and the double quote). -/
def chTab : Char := Char.ofNat 9

def chLf : Char := Char.ofNat 10

def chCr : Char := Char.ofNat 13

def chBsl : Char := Char.ofNat 92

def chSq : Char := Char.ofNat 39

def chDq : Char := Char.ofNat 34

/-- Modelled from the spec: the whitespace characters recognised when
trimming lines and delimiting tokens (`blaze_util::StripWhitespace`,
`blaze_util::Tokenize` are not under `src/`). -/
def isWsChar (c : Char) : Bool :=
  c = ' ' || c = chTab || c = chCr || c = chLf

/-- Modelled from the spec: `blaze_util::StripWhitespace` trims surrounding
whitespace from a line (spec §4.1 step 3). -/
def stripWhitespace (s : String) : String :=
  ⟨((s.data.dropWhile fun c => isWsChar c).reverse.dropWhile fun c => isWsChar c).reverse⟩

/-- If `pat` is a leading pattern of `s`, return the remainder of `s`. -/
def chopPat : List Char → List Char → Option (List Char)
  | [], s => some s
  | _ :: _, [] => none
  | p :: ps, c :: cs => if c = p then chopPat ps cs else none

/-- One left-to-right pass erasing every occurrence of the pattern
`p :: ps`; `fuel` bounds the number of characters examined (passing the
input's length makes the scan total). -/
def eraseAllAux (p : Char) (ps : List Char) : Nat → List Char → List Char
  | 0, s => s
  | _ + 1, [] => []
  | fuel + 1, c :: cs =>
    if c = p then
      match chopPat ps cs with
      | some rest => eraseAllAux p ps fuel rest
      | none => c :: eraseAllAux p ps fuel cs
    else c :: eraseAllAux p ps fuel cs

/-- Modelled from the spec: `blaze_util::Replace(pat, "", &contents)` erases
every occurrence of `pat`, scanning left to right (used for trailing-backslash
line continuations, spec §4.1 step 2). -/
def eraseAll (pat : String) (s : String) : String :=
  match pat.data with
  | [] => s
  | p :: ps => ⟨eraseAllAux p ps s.data.length s.data⟩

/-- The two `Replace` calls of `RcFile::Parse`: `"\\\r\n"` first, then
`"\\\n"`, each replaced by the empty string. -/
def normalizeContinuations (s : String) : String :=
  eraseAll "\\\n" (eraseAll "\\\r\n" s)

/-- Split a character list at `'\n'`, keeping empty pieces (they are skipped
by the line loop either way). -/
def splitChars : List Char → List Char → List String
  | [], cur => [⟨cur.reverse⟩]
  | c :: cs, cur => if c = chLf then ⟨cur.reverse⟩ :: splitChars cs [] else splitChars cs (c :: cur)

/-- Modelled from the spec: `blaze_util::Split(contents, '\n')` yields the
file's physical lines (spec §4.1 step 3). -/
def splitLines (s : String) : List String := splitChars s.data []

/-- Core of the tokenizer: `quote` is the currently open quote character,
`cur` the current token (reversed), `acc` the finished tokens (reversed). -/
def tokenizeAux : List Char → Option Char → List Char → List String → List String
  | [], _, [], acc => acc.reverse
  | [], _, cur, acc => (String.mk cur.reverse :: acc).reverse
  | c :: cs, some q, cur, acc =>
    if c = q then tokenizeAux cs none cur acc
    else if c = chBsl then
      match cs with
      | [] => tokenizeAux [] (some q) cur acc
      | d :: ds => tokenizeAux ds (some q) (d :: cur) acc
    else tokenizeAux cs (some q) (c :: cur) acc
  | c :: cs, none, cur, acc =>
    if c = '#' then (if cur = [] then acc.reverse else (String.mk cur.reverse :: acc).reverse)
    else if c = chSq || c = chDq then tokenizeAux cs (some c) cur acc
    else if c = chBsl then
      match cs with
      | [] => tokenizeAux [] none cur acc
      | d :: ds => tokenizeAux ds none (d :: cur) acc
    else if isWsChar c then
      (if cur = [] then tokenizeAux cs none [] acc
       else tokenizeAux cs none [] (String.mk cur.reverse :: acc))
    else tokenizeAux cs none (c :: cur) acc

/-- Modelled from the spec: `blaze_util::Tokenize(line, '#', &words)` —
`#` outside quotes starts a comment consuming the rest of the line, single
and double quotes group whitespace-containing tokens, backslash escapes the
following character, and malformed input (dangling escape, unterminated
quote) is tolerated by best-effort tokenization (spec §4.1 step 4). -/
def tokenize (s : String) : List String := tokenizeAux s.data none [] []

/-- Modelled from the spec: `blaze_util::starts_with`. -/
def starts_with (s pre : String) : Bool := (chopPat pre.data s.data).isSome

/-- Modelled from the spec: `blaze_util::GetUnaryOption(arg, next, key)` —
the value of a unary flag may be attached with `=` or given as the following
argument (spec §6 documents the consumed surface `--blazerc=<path>`). -/
def getUnaryOption (arg : String) (next : Option String) (key : String) : Option String :=
  if arg = key then next
  else
    match chopPat (key.data ++ ['=']) arg.data with
    | some rest => some ⟨rest⟩
    | none => none

/-! ## Collaborators -/

/-- State of the `StartupOptions` object as far as `ParseOptions` observes it:
the `batch` flag read when assembling the argument vector.  `ProcessArg` may
update it. -/
structure StartupOptionsState where
  batch : Bool
deriving DecidableEq

/-- Result of one `StartupOptions::ProcessArg` call: the returned exit code,
the error message written on failure, the `is_space_separated` output
parameter, and the updated `StartupOptions` state. -/
structure ProcessArgOut where
  exit : ExitCode
  errMsg : String
  isSpaceSeparated : Bool
  state : StartupOptionsState
deriving DecidableEq

/-- Modelled from the spec: the external collaborators consumed as black-box
services (spec §6) — file reading, workspace layout, the startup-option
validator, terminal info, path conversion, and the process environment. -/
structure Env where
  /-- `blaze_util::ReadFile`: `none` is a read failure. -/
  fs : String → Option String
  /-- `WorkspaceLayout::WorkspacePrefix` (the recognised workspace-relative
  path marker). -/
  workspacePrefixStr : String
  /-- `WorkspaceLayout::WorkspaceRelativizeRcFilePath workspace path`;
  `none` is a rewriting failure. -/
  relativize : String → String → Option String
  /-- `StartupOptions::ValidateStartupOptions(args, error)`. -/
  validate : List String → ExitCode × String
  /-- `StartupOptions::ProcessArg(arg, next_arg, rcfile, &is_space_separated,
  error)` acting on the current `StartupOptions` state. -/
  processArg : StartupOptionsState → String → String → String → ProcessArgOut
  /-- The initial `StartupOptions` state (`default_startup_options`). -/
  startup0 : StartupOptionsState
  /-- `WorkspaceLayout::RcBasename()`. -/
  rcBasename : String
  /-- `blaze::MakeAbsolute`. -/
  makeAbsolute : String → String
  /-- `blaze_util::CanAccess(path, true, false, false)`. -/
  canAccess : String → Bool
  /-- `getenv("HOME")`. -/
  home : Option String
  /-- `blaze_util::JoinPath`. -/
  joinPath : String → String → String
  /-- `IsStandardTerminal()`. -/
  isStandardTerminal : Bool
  /-- `GetTerminalColumns()`. -/
  terminalColumns : Nat
  /-- `IsEmacsTerminal()`. -/
  isEmacsTerminal : Bool
  /-- `blaze::ConvertPath`. -/
  convertPath : String → String
  /-- `blaze::ConvertPathList`. -/
  convertPathList : String → String
  /-- The process environment `environ`, as `NAME=value` strings. -/
  environ : List String

/-! ## The options-by-source map

`map<string, vector<RcOption>> rcoptions_` is a `std::map`, i.e. an
association list kept sorted by key (byte-wise string comparison);
`operator[] ... push_back` appends to the addressed key's vector. -/

/-- Byte-wise (code-point-wise) strict order on character lists, as
`std::string` comparison orders the keys of `rcoptions_`. -/
def charsLtb : List Char → List Char → Bool
  | [], [] => false
  | [], _ :: _ => true
  | _ :: _, [] => false
  | a :: as, b :: bs => if a < b then true else if b < a then false else charsLtb as bs

/-- Strict order on strings, as `std::map<string, ...>` orders its keys. -/
def strLtb (a b : String) : Bool := charsLtb a.data b.data

/-- `rcoptions_[command]`: the vector stored at a key (empty when absent). -/
def lookupRc : List (String × List RcOption) → String → List RcOption
  | [], _ => []
  | (k, v) :: rest, c => if k = c then v else lookupRc rest c

/-- `(*rcoptions)[command].push_back(o)`: append `o` to the key's vector,
creating the key at its sorted position when absent. -/
def rcPush : List (String × List RcOption) → String → RcOption → List (String × List RcOption)
  | [], c, o => [(c, [o])]
  | (k, v) :: rest, c, o =>
    if c = k then (k, v ++ [o]) :: rest
    else if strLtb c k then (c, [o]) :: (k, v) :: rest
    else (k, v) :: rcPush rest c o

/-- Sortedness invariant of the `std::map` backing list. -/
def RcMapSorted (m : List (String × List RcOption)) : Prop :=
  m.Pairwise fun a b => strLtb a.1 b.1 = true

/-! ## The recursive rc-file parser -/

/-- The state mutated by `RcFile::Parse`: the `rcfiles` vector and the
`rcoptions` map (both passed by pointer in the C++). -/
structure ParseState where
  rcfiles : List RcFile
  rcoptions : List (String × List RcOption)
deriving DecidableEq

/-- A parsing outcome: the parse result together with the final contents of
the by-reference import stack; `none` is fuel exhaustion of the embedding. -/
abbrev ParseRes := Option (Except Err ParseState × List String)

/-- The import-path rewriting step of the `import` case: if the path begins
with the workspace prefix, it is relativized (failure yields `none`,
reported as an invalid import declaration); otherwise it is kept as is. -/
def resolveImportPath (env : Env) (workspace w : String) : Option String :=
  if (chopPat env.workspacePrefixStr.data w.data).isSome then env.relativize workspace w
  else some w

/-- The cycle report built by the `import` case: one line `"  <entry>\n"`
per import-stack entry, in stack order. -/
def cycleReport (stack : List String) : String :=
  stack.foldl (fun acc e => acc ++ "  " ++ e ++ "\n") ""

/-- The line loop of `OptionProcessor::RcFile::Parse`, parametrised by the
recursive call `f` used for `import` lines (when the recursion is tied,
`f` is `parse` with the remaining fuel).  Lines are stripped; blank and
comment-only lines are skipped; an `import` line with other than exactly one
argument, or whose workspace-relative path fails to rewrite, is a `BAD_ARGV`
error citing the line; an import resolving into the current import stack is
the `BAD_ARGV` cycle error; otherwise a fresh `RcFile` is allocated with the
next sequential index, the path is pushed, the import parsed recursively
(errors propagate with no pop), and the stack is popped on success.  Any
other first token appends each remaining token to that command's vector. -/
def parseLinesWith (f : String → Nat → ParseState → List String → ParseRes)
    (env : Env) (workspace filename : String) (index : Nat) :
    List String → ParseState → List String → ParseRes
  | [], st, stack => some (.ok st, stack)
  | line :: rest, st, stack =>
    let l := stripWhitespace line
    if l.data = [] then parseLinesWith f env workspace filename index rest st stack
    else
      match tokenize l with
      | [] => parseLinesWith f env workspace filename index rest st stack
      | command :: args =>
        if command = "import" then
          match args with
          | [w] =>
            match resolveImportPath env workspace w with
            | some path =>
              if path ∈ stack then
                some (.error (.badArgv, "Import loop detected:\n" ++ cycleReport stack), stack)
              else
                let newIndex := st.rcfiles.length
                let st1 : ParseState := { st with rcfiles := st.rcfiles ++ [⟨path, newIndex⟩] }
                match f path newIndex st1 (stack ++ [path]) with
                | none => none
                | some (.error e, stk) => some (.error e, stk)
                | some (.ok st2, stk) =>
                  parseLinesWith f env workspace filename index rest st2 stk.dropLast
            | none =>
              some (.error (.badArgv,
                "Invalid import declaration in .blazerc file '" ++ filename ++ "': '"
                  ++ l ++ "'"), stack)
          | _ =>
            some (.error (.badArgv,
              "Invalid import declaration in .blazerc file '" ++ filename ++ "': '"
                ++ l ++ "'"), stack)
        else
          parseLinesWith f env workspace filename index rest
            { st with
              rcoptions := args.foldl (fun m wtok => rcPush m command ⟨index, wtok⟩) st.rcoptions }
            stack

/-- `OptionProcessor::RcFile::Parse` (the recursive overload): read the file
(read failure is the `INTERNAL_ERROR` of a previously verified file),
normalize line continuations, split into lines and run the line loop.
`fuel` bounds the import nesting depth. -/
def parse (env : Env) (workspace : String) :
    Nat → String → Nat → ParseState → List String → ParseRes
  | 0, _, _, _, _ => none
  | fuel + 1, filename, index, st, stack =>
    match env.fs filename with
    | none =>
      some (.error (.internalError,
        "Unexpected error reading .blazerc file '" ++ filename ++ "'"), stack)
    | some contents =>
      parseLinesWith (parse env workspace fuel) env workspace filename index
        (splitLines (normalizeContinuations contents)) st stack

/-- `OptionProcessor::RcFile::Parse` (the public overload): the initial
stack of imports holds the file itself. -/
def parseTop (env : Env) (workspace : String) (fuel : Nat)
    (filename : String) (index : Nat) (st : ParseState) : ParseRes :=
  parse env workspace fuel filename index st [filename]

/-! ## Startup-option resolution (`ParseStartupOptions`) -/

/-- `IsArg` (file-static in `option_processor.cc`): a token looks like an
option when it starts with `-` and is none of the literal help spellings. -/
def IsArg (arg : String) : Bool :=
  starts_with arg "-" && arg ≠ "--help" && arg ≠ "-help" && arg ≠ "-h"

/-- Which code site invoked `ProcessArg`: the rc-file phase or the
command-line phase of `ParseStartupOptions`. -/
inductive CallOrigin where
  | rcFile
  | commandLine
deriving DecidableEq

/-- One observed `StartupOptions::ProcessArg` invocation: its origin and the
three string arguments passed. -/
structure ValidatorCall where
  origin : CallOrigin
  arg : String
  next : String
  rcfile : String
deriving DecidableEq

/-- `blazercs_[i]->Filename()`.  The C++ indexes the vector directly; in the
pipeline the index is always in range (every `RcOption` is created with the
index of an existing `RcFile`), so the default is unreachable there. -/
def rcfileName (blazercs : List RcFile) (i : Nat) : String :=
  (blazercs.getD i ⟨"", 0⟩).filename

/-- The rc-file phase of `ParseStartupOptions`: walk the `startup` vector,
processing each option with its successor as potential space-separated value
(advancing by two when the validator reports `is_space_separated`); the final
entry, when not consumed as a value, is processed alone only if `IsArg` holds
of it.  Returns the updated state and the `ProcessArg` call trace.

The C++ loop head `i < startup_options.size() - 1` underflows for an empty
vector (then indexing is out of bounds); that state is unreachable because
`Parse` creates a key's vector only by pushing an element.  The embedding
treats the empty list as zero iterations. -/
def phaseA (env : Env) (blazercs : List RcFile) :
    StartupOptionsState → List RcOption → Except Err (StartupOptionsState × List ValidatorCall)
  | s, [] => .ok (s, [])
  | s, [a] =>
    if IsArg a.option then
      let bz := rcfileName blazercs a.rcfile_index
      let r := env.processArg s a.option "" bz
      if r.exit = .success then .ok (r.state, [⟨.rcFile, a.option, "", bz⟩])
      else .error (r.exit, r.errMsg)
    else .ok (s, [])
  | s, a :: b :: rest =>
    let bz := rcfileName blazercs a.rcfile_index
    let r := env.processArg s a.option b.option bz
    if r.exit = .success then
      if r.isSpaceSeparated then
        match phaseA env blazercs r.state rest with
        | .ok (s', tr) => .ok (s', ⟨.rcFile, a.option, b.option, bz⟩ :: tr)
        | .error e => .error e
      else
        match phaseA env blazercs r.state (b :: rest) with
        | .ok (s', tr) => .ok (s', ⟨.rcFile, a.option, b.option, bz⟩ :: tr)
        | .error e => .error e
    else .error (r.exit, r.errMsg)

/-- The command-line phase of `ParseStartupOptions`: starting at raw-argument
index 1 (tracked by `i`), consume `IsArg`-looking tokens with the same
space-separated-pair detection, stopping at the first non-option token; a
final option-looking argument is processed alone and consumed.  Returns the
state, the stop index `i`, and the call trace. -/
def phaseB (env : Env) :
    StartupOptionsState → Nat → List String →
    Except Err (StartupOptionsState × Nat × List ValidatorCall)
  | s, i, [] => .ok (s, i, [])
  | s, i, [a] =>
    if IsArg a then
      let r := env.processArg s a "" ""
      if r.exit = .success then .ok (r.state, i + 1, [⟨.commandLine, a, "", ""⟩])
      else .error (r.exit, r.errMsg)
    else .ok (s, i, [])
  | s, i, a :: b :: rest =>
    if IsArg a then
      let r := env.processArg s a b ""
      if r.exit = .success then
        if r.isSpaceSeparated then
          match phaseB env r.state (i + 2) rest with
          | .ok (s', i', tr) => .ok (s', i', ⟨.commandLine, a, b, ""⟩ :: tr)
          | .error e => .error e
        else
          match phaseB env r.state (i + 1) (b :: rest) with
          | .ok (s', i', tr) => .ok (s', i', ⟨.commandLine, a, b, ""⟩ :: tr)
          | .error e => .error e
      else .error (r.exit, r.errMsg)
    else .ok (s, i, [])

/-- `OptionProcessor::ParseStartupOptions`: the rc-file phase over the
`startup` vector, then the command-line phase from raw index 1; on success
returns the final `StartupOptions` state, `startup_args_ = i - 1`, and the
concatenated `ProcessArg` trace. -/
def parseStartupOptionsFn (env : Env) (blazercs : List RcFile)
    (rcoptions : List (String × List RcOption)) (s0 : StartupOptionsState)
    (args : List String) :
    Except Err (StartupOptionsState × Nat × List ValidatorCall) :=
  match phaseA env blazercs s0 (lookupRc rcoptions "startup") with
  | .error e => .error e
  | .ok (s1, tr1) =>
    if args = [] then .ok (s1, 0, tr1)
    else
      match phaseB env s1 1 (args.drop 1) with
      | .error e => .error e
      | .ok (s2, i, tr2) => .ok (s2, i - 1, tr1 ++ tr2)

/-! ## `ParseOptions` -/

/-- The blazerc-related scan at the top of `ParseOptions`: for each raw
argument from index 1, fill `blazerc` (once) from `--blazerc` then
`--bazelrc`, and clear `use_master_blazerc` on `--nomaster_blazerc` /
`--nomaster_bazelrc` (`GetNullaryOption`, modelled from the spec as exact
match). -/
def scanBl (bl : Option String) (a : String) (next : Option String) : Option String :=
  let bl1 := if bl = none then getUnaryOption a next "--blazerc" else bl
  if bl1 = none then getUnaryOption a next "--bazelrc" else bl1

/-- The `use_master_blazerc` update for one scanned argument. -/
def scanUm (um : Bool) (a : String) : Bool :=
  if um ∧ (a = "--nomaster_blazerc" ∨ a = "--nomaster_bazelrc") then false else um

def scanArgs : Option String → Bool → List String → Option String × Bool
  | bl, um, [] => (bl, um)
  | bl, um, a :: rest => scanArgs (scanBl bl a rest.head?) (scanUm um a) rest

/-- `OptionProcessor::FindUserBlazerc`: a command-line rc path must be
readable (else `BAD_ARGV`); otherwise the first readable of
`workspace/basename` and `$HOME/basename`, or the empty string. -/
def findUserBlazerc (env : Env) (cmdLineRcFile : Option String)
    (rcBasename workspace : String) : Except Err String :=
  match cmdLineRcFile with
  | some f =>
    let rcFile := env.makeAbsolute f
    if ¬ env.canAccess rcFile then
      .error (.badArgv, "Error: Unable to read .blazerc file '" ++ rcFile ++ "'.")
    else .ok rcFile
  | none =>
    let workspaceRc := env.joinPath workspace rcBasename
    if env.canAccess workspaceRc then .ok workspaceRc
    else
      match env.home with
      | none => .ok ""
      | some home =>
        let userRc := env.joinPath home rcBasename
        if env.canAccess userRc then .ok userRc else .ok ""

/-- The candidate-processing loop of `ParseOptions`: throw away empty paths,
dedupe with a seen set, and for each fresh path allocate an `RcFile` with the
next sequential index and run the top-level `Parse` (its import stack seeded
with the file itself).  Alongside the final state, the paths parsed at top
level are returned in order (the loop's observable sequence of `Parse`
invocations). -/
def processCandidates (env : Env) (workspace : String) (fuel : Nat) :
    List String → List String → ParseState → Option (Except Err (ParseState × List String))
  | [], _, st => some (.ok (st, []))
  | p :: rest, seen, st =>
    if p ≠ "" ∧ p ∉ seen then
      let st1 : ParseState := { st with rcfiles := st.rcfiles ++ [⟨p, st.rcfiles.length⟩] }
      match parse env workspace fuel p st.rcfiles.length st1 [p] with
      | none => none
      | some (.error e, _) => some (.error e)
      | some (.ok st2, _) =>
        match processCandidates env workspace fuel rest (p :: seen) st2 with
        | none => none
        | some (.error e) => some (.error e)
        | some (.ok (st3, ps)) => some (.ok (st3, p :: ps))
    else processCandidates env workspace fuel rest seen st

/-- The claim's description of which candidate paths get parsed: empty paths
are skipped entirely, and a path occurring more than once is kept only at its
first occurrence (`seen` holds the paths already taken), in candidate
order. -/
def firstOccurrenceSelection (seen : List String) : List String → List String
  | [] => []
  | p :: rest =>
    if p ≠ "" ∧ p ∉ seen then p :: firstOccurrenceSelection (p :: seen) rest
    else firstOccurrenceSelection seen rest

/-- Parse a sequence of rc files once each, in order, each allocated the next
sequential `RcFile` index and parsed with a fresh import stack — the
candidate loop with the dedup already applied. -/
def parseSeq (env : Env) (workspace : String) (fuel : Nat) :
    List String → ParseState → Option (Except Err ParseState)
  | [], st => some (.ok st)
  | p :: rest, st =>
    let st1 : ParseState := { st with rcfiles := st.rcfiles ++ [⟨p, st.rcfiles.length⟩] }
    match parse env workspace fuel p st.rcfiles.length st1 [p] with
    | none => none
    | some (.error e, _) => some (.error e)
    | some (.ok st2, _) => parseSeq env workspace fuel rest st2

/-- Split a `NAME=value` string at its first `=`. -/
def splitAtEq : List Char → List Char → Option (String × String)
  | [], _ => none
  | c :: cs, acc => if c = '=' then some (⟨acc.reverse⟩, ⟨cs⟩) else splitAtEq cs (c :: acc)

/-- The environment-entry rewriting of `AddRcfileArgsAndOptions`: the value
of `PATH` goes through `ConvertPathList`, the value of `TMP` through
`ConvertPath` (a valid Windows path is also a valid Unix path list, so `TMP`
must use the single-path rule); every other entry is passed through. -/
def rewriteEnvEntry (env : Env) (s : String) : String :=
  match splitAtEq s.data [] with
  | none => s
  | some (name, value) =>
    if name = "PATH" then "PATH=" ++ env.convertPathList value
    else if name = "TMP" then "TMP=" ++ env.convertPath value
    else s

/-- `OptionProcessor::AddRcfileArgsAndOptions`: the fixed-order argument
vector — client terminal defaults (source index 0), one `--rc_source` per
rc file, the `--default_override` entries for every command except
`startup` in map order, the client environment (or `--ignore_client_env` in
batch mode), the converted cwd, and `--emacs` when detected. -/
def addRcfileArgsAndOptions (env : Env) (batch : Bool) (cwd : String)
    (blazercs : List RcFile) (rcoptions : List (String × List RcOption)) : List String :=
  ["--rc_source=client",
   "--default_override=0:common=--isatty=" ++ (if env.isStandardTerminal then "1" else "0"),
   "--default_override=0:common=--terminal_columns=" ++ toString env.terminalColumns]
  ++ blazercs.map (fun rc => "--rc_source=" ++ env.convertPath rc.filename)
  ++ (rcoptions.map (fun kv =>
       if kv.1 = "startup" then []
       else kv.2.map (fun o =>
         "--default_override=" ++ toString (o.rcfile_index + 1) ++ ":" ++ kv.1
           ++ "=" ++ o.option))).flatten
  ++ (if batch then ["--ignore_client_env"]
      else env.environ.map (fun e => "--client_env=" ++ rewriteEnvEntry env e))
  ++ ["--client_cwd=" ++ env.convertPath cwd]
  ++ (if env.isEmacsTerminal then ["--emacs"] else [])

/-- The observable outcome of a successful `ParseOptions` run. -/
structure ProcResult where
  blazercs : List RcFile
  rcoptions : List (String × List RcOption)
  command : String
  commandArguments : List String
  startupArgs : Nat
  startupState : StartupOptionsState
  trace : List ValidatorCall
deriving DecidableEq

/-- `OptionProcessor::ParseOptions`: scan for blazerc-related flags, validate
the command line, gather candidate rc paths (the Candidate Path Finder runs
only when master rc is not disabled), append the user rc, parse the
candidates, resolve startup options, and determine the command.  When no
token follows the startup-option boundary the command is empty and the run
ends successfully with no argument-vector assembly; otherwise the assembled
vector is followed by the remaining raw arguments. -/
def parseOptions (env : Env) (finder : String → String → List String → List String)
    (fuel : Nat) (args : List String) (workspace cwd : String) :
    Option (Except Err ProcResult) :=
  let scanned := scanArgs none true (args.drop 1)
  let v := env.validate args
  if v.1 ≠ .success then some (.error (v.1, v.2))
  else
    let candidates := if scanned.2 then finder workspace cwd args else []
    match findUserBlazerc env scanned.1 env.rcBasename workspace with
    | .error e => some (.error e)
    | .ok userRc =>
      match processCandidates env workspace fuel (candidates ++ [userRc]) [] ⟨[], []⟩ with
      | none => none
      | some (.error e) => some (.error e)
      | some (.ok (st, _)) =>
        match parseStartupOptionsFn env st.rcfiles st.rcoptions env.startup0 args with
        | .error e => some (.error e)
        | .ok (s2, sa, tr) =>
          if sa + 1 ≥ args.length then
            some (.ok ⟨st.rcfiles, st.rcoptions, "", [], sa, s2, tr⟩)
          else
            some (.ok ⟨st.rcfiles, st.rcoptions, args.getD (sa + 1) "",
              addRcfileArgsAndOptions env s2.batch cwd st.rcfiles st.rcoptions
                ++ args.drop (sa + 2), sa, s2, tr⟩)

/-- Every `RcFile` in the vector carries the index of its own position —
the invariant maintained by allocating each `RcFile` with
`rcfiles->size()` as its index. -/
def IndexOk (l : List RcFile) : Prop :=
  ∀ k, (h : k < l.length) → l[k].index = k

/-- How one parsing step may change the state: `rcfiles` only grows at the
end, position-indexing of `rcfiles` is preserved, and (from a sorted options
map) each command's option vector only grows at the end. -/
def GoodStep (st st' : ParseState) : Prop :=
  (∃ d, st'.rcfiles = st.rcfiles ++ d) ∧
  (IndexOk st.rcfiles → IndexOk st'.rcfiles) ∧
  (RcMapSorted st.rcoptions →
    RcMapSorted st'.rcoptions ∧
    ∀ c, ∃ d, lookupRc st'.rcoptions c = lookupRc st.rcoptions c ++ d)

/-- Soundness bundle for a recursive-parse callee: the input import stack is
always a leading part of the returned one (pushes are never undone by
anything but the matching pop), and on success the stack is returned exactly
as it was received and the state change is a `GoodStep`. -/
def ParseGood (f : String → Nat → ParseState → List String → ParseRes) : Prop :=
  ∀ p i st stack res stk', f p i st stack = some (res, stk') →
    stack <+: stk' ∧ ∀ st', res = .ok st' → stk' = stack ∧ GoodStep st st'

/-- The spec-side description of one line's contribution: the first token is
the command word, every remaining token one option, in left-to-right order
(blank and comment-only lines contribute nothing). -/
def lineEmissions (l : String) : List (String × String) :=
  match tokenize (stripWhitespace l) with
  | [] => []
  | c :: args => args.map fun t => (c, t)

/-- The spec-side description of a file's emission order: the lines in file
order, each contributing its tokens left to right. -/
def flatEmissions (lines : List String) : List (String × String) :=
  (lines.map lineEmissions).flatten

/-! ## Concrete collaborator environments for the scenarios -/

/-- A collaborator environment with inert defaults, the base of the concrete
scenarios below. -/
def baseEnv : Env where
  fs := fun _ => none
  workspacePrefixStr := "%workspace%/"
  relativize := fun _ _ => none
  validate := fun _ => (.success, "")
  processArg := fun s _ _ _ => ⟨.success, "", false, s⟩
  startup0 := ⟨false⟩
  rcBasename := "bazelrc"
  makeAbsolute := id
  canAccess := fun _ => false
  home := none
  joinPath := fun a b => a ++ "/" ++ b
  isStandardTerminal := false
  terminalColumns := 80
  isEmacsTerminal := false
  convertPath := id
  convertPathList := id
  environ := []

/-- Scenario: a single readable user rc file containing a `startup` and a
`build` line (spec §8's worked scenario). -/
def envUserRc : Env := { baseEnv with
  fs := fun f => if f = "/ws/bazelrc" then some "startup --bar\nbuild --opt=v\n" else none,
  canAccess := fun p => p = "/ws/bazelrc" }

/-- Scenario: two independent rc files importing the same third file. -/
def envShared : Env := { baseEnv with
  fs := fun f =>
    if f = "t1" then some "import third"
    else if f = "t2" then some "import third"
    else if f = "third" then some "build --x"
    else none }

/-- Scenario: a file importing an unreadable file (the recursive parse fails
with `INTERNAL_ERROR`). -/
def envBroken : Env := { baseEnv with
  fs := fun f => if f = "a" then some "import b" else none }

/-! ## Order lemmas for the map keys -/

theorem charsLtb_irrefl : ∀ l : List Char, charsLtb l l = false
  | [] => rfl
  | a :: as => by
    simp only [charsLtb, lt_irrefl, if_false]
    exact charsLtb_irrefl as

theorem charsLtb_trans : ∀ {a b c : List Char},
    charsLtb a b = true → charsLtb b c = true → charsLtb a c = true
  | [], [], _, hab, _ => absurd hab (by simp [charsLtb])
  | [], _ :: _, [], _, hbc => absurd hbc (by simp [charsLtb])
  | [], _ :: _, _ :: _, _, _ => rfl
  | _ :: _, [], _, hab, _ => absurd hab (by simp [charsLtb])
  | _ :: _, _ :: _, [], _, hbc => absurd hbc (by simp [charsLtb])
  | x :: xs, y :: ys, z :: zs, hab, hbc => by
    simp only [charsLtb] at hab hbc ⊢
    rcases lt_trichotomy x y with hxy | hxy | hxy
    · rcases lt_trichotomy y z with hyz | hyz | hyz
      · rw [if_pos (lt_trans hxy hyz)]
      · subst hyz
        rw [if_pos hxy]
      · rw [if_neg (lt_asymm hyz), if_pos hyz] at hbc
        simp at hbc
    · subst hxy
      rw [if_neg (lt_irrefl x), if_neg (lt_irrefl x)] at hab
      rcases lt_trichotomy x z with hxz | hxz | hxz
      · rw [if_pos hxz]
      · subst hxz
        rw [if_neg (lt_irrefl x), if_neg (lt_irrefl x)] at hbc ⊢
        exact charsLtb_trans hab hbc
      · rw [if_neg (lt_asymm hxz), if_pos hxz] at hbc
        simp at hbc
    · rw [if_neg (lt_asymm hxy), if_pos hxy] at hab
      simp at hab

theorem charsLtb_total : ∀ a b : List Char,
    a = b ∨ charsLtb a b = true ∨ charsLtb b a = true
  | [], [] => .inl rfl
  | [], _ :: _ => .inr (.inl rfl)
  | _ :: _, [] => .inr (.inr rfl)
  | x :: xs, y :: ys => by
    rcases lt_trichotomy x y with h | h | h
    · refine .inr (.inl ?_)
      simp [charsLtb, h]
    · subst h
      rcases charsLtb_total xs ys with h | h | h
      · exact .inl (h ▸ rfl)
      · exact .inr (.inl (by simp [charsLtb, lt_irrefl, h]))
      · exact .inr (.inr (by simp [charsLtb, lt_irrefl, h]))
    · refine .inr (.inr ?_)
      simp [charsLtb, h]

theorem strLtb_irrefl (s : String) : strLtb s s = false := charsLtb_irrefl s.data

theorem strLtb_trans {a b c : String} (hab : strLtb a b = true) (hbc : strLtb b c = true) :
    strLtb a c = true := charsLtb_trans hab hbc

theorem strLtb_total (a b : String) : a = b ∨ strLtb a b = true ∨ strLtb b a = true := by
  rcases charsLtb_total a.data b.data with h | h | h
  · exact .inl (String.ext h)
  · exact .inr (.inl h)
  · exact .inr (.inr h)

theorem strLtb_ne {a b : String} (h : strLtb a b = true) : a ≠ b := by
  rintro rfl
  rw [strLtb_irrefl] at h
  exact Bool.false_ne_true h

/-! ## Lemmas about the options-by-source map -/

theorem keys_rcPush {m : List (String × List RcOption)} {c k' : String} {o : RcOption}
    (h : k' ∈ (rcPush m c o).map Prod.fst) : k' = c ∨ k' ∈ m.map Prod.fst := by
  induction m with
  | nil =>
    simp only [rcPush, List.map_cons, List.map_nil, List.mem_singleton] at h
    exact .inl h
  | cons hd tl ih =>
    simp only [rcPush] at h
    split at h
    · rename_i heq
      simp only [List.map_cons, List.mem_cons] at h ⊢
      rcases h with h | h
      · exact .inr (.inl h)
      · exact .inr (.inr h)
    · split at h
      · simp only [List.map_cons, List.mem_cons] at h ⊢
        rcases h with h | h | h
        · exact .inl h
        · exact .inr (.inl h)
        · exact .inr (.inr h)
      · simp only [List.map_cons, List.mem_cons] at h ⊢
        rcases h with h | h
        · exact .inr (.inl h)
        · rcases ih h with h' | h'
          · exact .inl h'
          · exact .inr (.inr h')

theorem sorted_rcPush {m : List (String × List RcOption)} {c : String} {o : RcOption}
    (hm : RcMapSorted m) : RcMapSorted (rcPush m c o) := by
  induction m with
  | nil => simp [rcPush, RcMapSorted]
  | cons hd tl ih =>
    rw [RcMapSorted, List.pairwise_cons] at hm
    obtain ⟨hhd, htl⟩ := hm
    simp only [rcPush]
    split
    · rename_i heq
      rw [RcMapSorted, List.pairwise_cons]
      exact ⟨hhd, htl⟩
    · split
      · rename_i hne hlt
        rw [RcMapSorted, List.pairwise_cons]
        refine ⟨?_, List.pairwise_cons.mpr ⟨hhd, htl⟩⟩
        rintro ⟨k, v⟩ hk
        rcases List.mem_cons.mp hk with h | h
        · exact h ▸ hlt
        · exact strLtb_trans hlt (hhd _ h)
      · rename_i hne hge
        rw [RcMapSorted, List.pairwise_cons]
        refine ⟨?_, ih htl⟩
        intro p hp
        have hp' := keys_rcPush (List.mem_map_of_mem Prod.fst hp)
        rcases hp' with h | h
        · rcases strLtb_total c hd.1 with h' | h' | h'
          · exact absurd h' hne
          · exact absurd h' hge
          · exact h ▸ h'
        · obtain ⟨q, hq, hq'⟩ := List.mem_map.mp h
          exact hq' ▸ hhd q hq

theorem lookupRc_eq_nil {m : List (String × List RcOption)} {c : String}
    (h : ∀ p ∈ m, strLtb c p.1 = true) : lookupRc m c = [] := by
  induction m with
  | nil => rfl
  | cons hd tl ih =>
    simp only [lookupRc]
    rw [if_neg, ih fun p hp => h p (List.mem_cons_of_mem hd hp)]
    intro heq
    exact strLtb_ne (h hd (List.mem_cons_self hd tl)) heq.symm

theorem lookupRc_rcPush_self : ∀ {m : List (String × List RcOption)} {c : String} {o : RcOption},
    RcMapSorted m → lookupRc (rcPush m c o) c = lookupRc m c ++ [o]
  | [], c, o, _ => by simp [rcPush, lookupRc]
  | (k, v) :: tl, c, o, hm => by
    rw [RcMapSorted, List.pairwise_cons] at hm
    obtain ⟨hhd, htl⟩ := hm
    simp only [rcPush]
    split
    · rename_i heq
      subst heq
      simp [lookupRc]
    · rename_i hne
      split
      · rename_i hlt
        simp only [lookupRc, if_pos rfl, if_neg fun h : k = c => hne h.symm]
        rw [lookupRc_eq_nil fun p hp => strLtb_trans hlt (hhd p hp)]
        simp
      · simp only [lookupRc, if_neg fun h : k = c => hne h.symm]
        exact lookupRc_rcPush_self htl

theorem lookupRc_rcPush_ne : ∀ {m : List (String × List RcOption)} {c c' : String} {o : RcOption},
    c' ≠ c → lookupRc (rcPush m c o) c' = lookupRc m c'
  | [], c, c', o, hne => by
    simp [rcPush, lookupRc, if_neg fun h : c = c' => hne h.symm]
  | (k, v) :: tl, c, c', o, hne => by
    simp only [rcPush]
    split
    · rename_i heq
      subst heq
      simp [lookupRc, if_neg fun h : c = c' => hne h.symm]
    · split
      · simp only [lookupRc, if_neg fun h : c = c' => hne h.symm]
      · simp only [lookupRc]
        split
        · rfl
        · exact lookupRc_rcPush_ne hne

/-- Pushing a run of tokens for one command appends them, in order, to that
command's vector and leaves every other command unchanged. -/
theorem lookupRc_pushTokens {cmd : String} {idx : Nat} :
    ∀ (args : List String) (m : List (String × List RcOption)), RcMapSorted m →
      RcMapSorted (args.foldl (fun m' w => rcPush m' cmd ⟨idx, w⟩) m) ∧
      ∀ c, lookupRc (args.foldl (fun m' w => rcPush m' cmd ⟨idx, w⟩) m) c =
        lookupRc m c ++ (if c = cmd then args.map (⟨idx, ·⟩) else [])
  | [], m, hm => by simp [hm]
  | w :: ws, m, hm => by
    obtain ⟨hs, hl⟩ := lookupRc_pushTokens ws (rcPush m cmd ⟨idx, w⟩) (sorted_rcPush hm)
    refine ⟨hs, fun c => ?_⟩
    rw [List.foldl_cons] at *
    rw [hl c]
    by_cases hc : c = cmd
    · subst hc
      rw [lookupRc_rcPush_self hm]
      simp
    · rw [lookupRc_rcPush_ne hc, if_neg hc, if_neg hc]

/-! ## Structural invariants of the recursive parser -/

theorem indexOk_push {l : List RcFile} {p : String} (h : IndexOk l) :
    IndexOk (l ++ [RcFile.mk p l.length]) := by
  intro k hk
  simp only [List.length_append, List.length_singleton] at hk
  rcases Nat.lt_or_ge k l.length with h' | h'
  · rw [List.getElem_append_left h']
    exact h k h'
  · have hkl : k = l.length := by omega
    subst hkl
    simp

theorem goodStep_refl (st : ParseState) : GoodStep st st :=
  ⟨⟨[], (List.append_nil _).symm⟩, id,
   fun hs => ⟨hs, fun _ => ⟨[], (List.append_nil _).symm⟩⟩⟩

theorem goodStep_trans {a b c : ParseState} (hab : GoodStep a b) (hbc : GoodStep b c) :
    GoodStep a c := by
  obtain ⟨⟨d1, hd1⟩, hi1, ho1⟩ := hab
  obtain ⟨⟨d2, hd2⟩, hi2, ho2⟩ := hbc
  refine ⟨⟨d1 ++ d2, by rw [hd2, hd1, List.append_assoc]⟩, fun h => hi2 (hi1 h), fun hs => ?_⟩
  obtain ⟨hs1, hl1⟩ := ho1 hs
  obtain ⟨hs2, hl2⟩ := ho2 hs1
  refine ⟨hs2, fun cc => ?_⟩
  obtain ⟨e1, he1⟩ := hl1 cc
  obtain ⟨e2, he2⟩ := hl2 cc
  exact ⟨e1 ++ e2, by rw [he2, he1, List.append_assoc]⟩

theorem dropLast_append_one {α : Type} (l : List α) (a : α) : (l ++ [a]).dropLast = l := by
  simp

theorem parseLinesWith_good {f : String → Nat → ParseState → List String → ParseRes}
    (hf : ParseGood f) (env : Env) (ws fn : String) (idx : Nat) :
    ∀ (lines : List String) (st : ParseState) (stack : List String) res stk',
      parseLinesWith f env ws fn idx lines st stack = some (res, stk') →
      stack <+: stk' ∧ ∀ st', res = .ok st' → stk' = stack ∧ GoodStep st st'
  | [], st, stack, res, stk', h => by
    simp only [parseLinesWith, Option.some.injEq, Prod.mk.injEq] at h
    obtain ⟨h1, h2⟩ := h
    subst h2
    refine ⟨List.prefix_refl _, fun st' hst' => ?_⟩
    rw [← h1] at hst'
    cases hst'
    exact ⟨rfl, goodStep_refl st⟩
  | line :: rest, st, stack, res, stk', h => by
    rw [parseLinesWith] at h
    simp only at h
    by_cases hl : (stripWhitespace line).data = []
    · rw [if_pos hl] at h
      exact parseLinesWith_good hf env ws fn idx rest st stack res stk' h
    · rw [if_neg hl] at h
      cases htok : tokenize (stripWhitespace line) with
      | nil =>
        rw [htok] at h
        exact parseLinesWith_good hf env ws fn idx rest st stack res stk' h
      | cons command args =>
        rw [htok] at h
        dsimp only at h
        by_cases hcmd : command = "import"
        · rw [if_pos hcmd] at h
          match args with
          | [] =>
            simp only [Option.some.injEq, Prod.mk.injEq] at h
            obtain ⟨h1, h2⟩ := h
            subst h2
            refine ⟨List.prefix_refl _, fun st' hst' => ?_⟩
            rw [← h1] at hst'
            exact absurd hst' (by simp)
          | w :: x :: ys =>
            simp only [Option.some.injEq, Prod.mk.injEq] at h
            obtain ⟨h1, h2⟩ := h
            subst h2
            refine ⟨List.prefix_refl _, fun st' hst' => ?_⟩
            rw [← h1] at hst'
            exact absurd hst' (by simp)
          | [w] =>
            dsimp only at h
            cases hres : resolveImportPath env ws w with
            | none =>
              rw [hres] at h
              dsimp only at h
              simp only [Option.some.injEq, Prod.mk.injEq] at h
              obtain ⟨h1, h2⟩ := h
              subst h2
              refine ⟨List.prefix_refl _, fun st' hst' => ?_⟩
              rw [← h1] at hst'
              exact absurd hst' (by simp)
            | some path =>
              rw [hres] at h
              dsimp only at h
              by_cases hmem : path ∈ stack
              · rw [if_pos hmem] at h
                simp only [Option.some.injEq, Prod.mk.injEq] at h
                obtain ⟨h1, h2⟩ := h
                subst h2
                refine ⟨List.prefix_refl _, fun st' hst' => ?_⟩
                rw [← h1] at hst'
                exact absurd hst' (by simp)
              · rw [if_neg hmem] at h
                cases hrec : f path st.rcfiles.length
                    ⟨st.rcfiles ++ [⟨path, st.rcfiles.length⟩], st.rcoptions⟩
                    (stack ++ [path]) with
                | none => rw [hrec] at h; exact absurd h (by simp)
                | some pr =>
                  obtain ⟨rres, rstk⟩ := pr
                  rw [hrec] at h
                  obtain ⟨hpre, hok⟩ := hf path st.rcfiles.length _ _ rres rstk hrec
                  cases rres with
                  | error e =>
                    simp only [Option.some.injEq, Prod.mk.injEq] at h
                    obtain ⟨h1, h2⟩ := h
                    subst h2
                    refine ⟨(List.prefix_append stack [path]).trans hpre, fun st' hst' => ?_⟩
                    rw [← h1] at hst'
                    exact absurd hst' (by simp)
                  | ok st2 =>
                    obtain ⟨hstk, hstep⟩ := hok st2 rfl
                    subst hstk
                    dsimp only at h
                    rw [dropLast_append_one] at h
                    obtain ⟨hpre', hok'⟩ :=
                      parseLinesWith_good hf env ws fn idx rest st2 stack res stk' h
                    refine ⟨hpre', fun st' hst' => ?_⟩
                    obtain ⟨hstk', hstep'⟩ := hok' st' hst'
                    refine ⟨hstk', goodStep_trans (goodStep_trans ?_ hstep) hstep'⟩
                    refine ⟨⟨[⟨path, st.rcfiles.length⟩], rfl⟩, indexOk_push, fun hs => ⟨hs, ?_⟩⟩
                    exact fun c => ⟨[], (List.append_nil _).symm⟩
        · rw [if_neg hcmd] at h
          obtain ⟨hpre', hok'⟩ := parseLinesWith_good hf env ws fn idx rest
            ⟨st.rcfiles, args.foldl (fun m wtok => rcPush m command ⟨idx, wtok⟩) st.rcoptions⟩
            stack res stk' h
          refine ⟨hpre', fun st' hst' => ?_⟩
          obtain ⟨hstk', hstep'⟩ := hok' st' hst'
          refine ⟨hstk', goodStep_trans ?_ hstep'⟩
          refine ⟨⟨[], (List.append_nil _).symm⟩, id, fun hs => ?_⟩
          obtain ⟨hs', hl'⟩ := lookupRc_pushTokens args st.rcoptions hs
          refine ⟨hs', fun c => ?_⟩
          exact ⟨_, hl' c⟩

/-- `parse` satisfies the soundness bundle at every fuel. -/
theorem parse_good (env : Env) (ws : String) : ∀ fuel, ParseGood (parse env ws fuel)
  | 0 => by
    intro p i st stack res stk' h
    simp [parse] at h
  | fuel + 1 => by
    intro p i st stack res stk' h
    rw [parse] at h
    cases hfs : env.fs p with
    | none =>
      rw [hfs] at h
      simp only [Option.some.injEq, Prod.mk.injEq] at h
      obtain ⟨h1, h2⟩ := h
      subst h2
      refine ⟨List.prefix_refl _, fun st' hst' => ?_⟩
      rw [← h1] at hst'
      exact absurd hst' (by simp)
    | some contents =>
      rw [hfs] at h
      exact parseLinesWith_good (parse_good env ws fuel) env ws p i
        (splitLines (normalizeContinuations contents)) st stack res stk' h

/-! ## Emission order of a file without imports -/

theorem lookupRc_pushEmissions {idx : Nat} :
    ∀ (ems : List (String × String)) (m : List (String × List RcOption)), RcMapSorted m →
      RcMapSorted (ems.foldl (fun m' e => rcPush m' e.1 ⟨idx, e.2⟩) m) ∧
      ∀ c, lookupRc (ems.foldl (fun m' e => rcPush m' e.1 ⟨idx, e.2⟩) m) c =
        lookupRc m c ++ ems.filterMap fun e => if e.1 = c then some ⟨idx, e.2⟩ else none
  | [], m, hm => by simp [hm]
  | (k, t) :: ems, m, hm => by
    obtain ⟨hs, hl⟩ := lookupRc_pushEmissions ems (rcPush m k ⟨idx, t⟩) (sorted_rcPush hm)
    refine ⟨hs, fun c => ?_⟩
    rw [List.foldl_cons] at *
    rw [hl c, List.filterMap_cons]
    by_cases hc : k = c
    · subst hc
      rw [lookupRc_rcPush_self hm, if_pos rfl, List.append_assoc]
      rfl
    · rw [lookupRc_rcPush_ne fun h => hc h.symm, if_neg hc]

/-- Parsing lines none of which starts with the `import` command word always
succeeds, leaves `rcfiles` and the stack unchanged, and folds the file's
emissions into the options map in spec order. -/
theorem parseLinesWith_noImport {f : String → Nat → ParseState → List String → ParseRes}
    (env : Env) (ws fn : String) (idx : Nat) :
    ∀ (lines : List String) (st : ParseState) (stack : List String),
      (∀ l ∈ lines, (tokenize (stripWhitespace l)).head? ≠ some "import") →
      parseLinesWith f env ws fn idx lines st stack =
        some (.ok ⟨st.rcfiles,
          (flatEmissions lines).foldl (fun m e => rcPush m e.1 ⟨idx, e.2⟩) st.rcoptions⟩, stack)
  | [], st, stack, _ => by
    simp [parseLinesWith, flatEmissions]
  | line :: rest, st, stack, h => by
    have hline := h line (List.mem_cons_self line rest)
    have hrest : ∀ l ∈ rest, (tokenize (stripWhitespace l)).head? ≠ some "import" :=
      fun l hl => h l (List.mem_cons_of_mem line hl)
    rw [parseLinesWith]
    simp only
    have hflat : flatEmissions (line :: rest) = lineEmissions line ++ flatEmissions rest := by
      simp [flatEmissions]
    by_cases hl : (stripWhitespace line).data = []
    · rw [if_pos hl, parseLinesWith_noImport env ws fn idx rest st stack hrest]
      have hle : lineEmissions line = [] := by
        rw [lineEmissions]
        have : tokenize (stripWhitespace line) = [] := by
          rw [tokenize, hl]
          rfl
        rw [this]
      rw [hflat, hle, List.nil_append]
    · rw [if_neg hl]
      cases htok : tokenize (stripWhitespace line) with
      | nil =>
        dsimp only
        rw [parseLinesWith_noImport env ws fn idx rest st stack hrest]
        have hle : lineEmissions line = [] := by rw [lineEmissions, htok]
        rw [hflat, hle, List.nil_append]
      | cons command args =>
        have hcmd : command ≠ "import" := by
          intro hc
          rw [htok, hc] at hline
          exact hline rfl
        dsimp only
        rw [if_neg hcmd, parseLinesWith_noImport env ws fn idx rest _ stack hrest]
        have hle : lineEmissions line = args.map fun t => (command, t) := by
          rw [lineEmissions, htok]
        rw [hflat, hle, List.foldl_append, List.foldl_map]

/-! ## The candidate-processing loop -/

theorem processCandidates_ok (env : Env) (ws : String) (fuel : Nat) :
    ∀ (cands seen : List String) (st st' : ParseState) (ps : List String),
      processCandidates env ws fuel cands seen st = some (.ok (st', ps)) →
      GoodStep st st' ∧ ps.Nodup ∧ ps.Sublist cands ∧
        ∀ q, q ∈ ps ↔ q ≠ "" ∧ q ∈ cands ∧ q ∉ seen
  | [], seen, st, st', ps, h => by
    simp only [processCandidates, Option.some.injEq, Except.ok.injEq, Prod.mk.injEq] at h
    obtain ⟨h1, h2⟩ := h
    subst h1 h2
    exact ⟨goodStep_refl st, List.nodup_nil, List.nil_sublist _, by simp⟩
  | p :: rest, seen, st, st', ps, h => by
    rw [processCandidates] at h
    by_cases hp : p ≠ "" ∧ p ∉ seen
    · rw [if_pos hp] at h
      dsimp only at h
      cases hrec : parse env ws fuel p st.rcfiles.length
          ⟨st.rcfiles ++ [⟨p, st.rcfiles.length⟩], st.rcoptions⟩ [p] with
      | none => rw [hrec] at h; exact absurd h (by simp)
      | some pr =>
        obtain ⟨rres, rstk⟩ := pr
        rw [hrec] at h
        cases rres with
        | error e => exact absurd h (by simp)
        | ok st2 =>
          dsimp only at h
          cases hrec2 : processCandidates env ws fuel rest (p :: seen) st2 with
          | none => rw [hrec2] at h; exact absurd h (by simp)
          | some r2 =>
            rw [hrec2] at h
            cases r2 with
            | error e => exact absurd h (by simp)
            | ok pr2 =>
              obtain ⟨st3, ps3⟩ := pr2
              simp only [Option.some.injEq, Except.ok.injEq, Prod.mk.injEq] at h
              obtain ⟨h1, h2⟩ := h
              subst h1 h2
              obtain ⟨hstep, hnd, hsub, hmem⟩ :=
                processCandidates_ok env ws fuel rest (p :: seen) st2 st3 ps3 hrec2
              obtain ⟨_, hok⟩ := parse_good env ws fuel p st.rcfiles.length _ _ _ _ hrec
              obtain ⟨_, hstep0⟩ := hok st2 rfl
              have hpush : GoodStep st ⟨st.rcfiles ++ [⟨p, st.rcfiles.length⟩], st.rcoptions⟩ :=
                ⟨⟨[⟨p, st.rcfiles.length⟩], rfl⟩, indexOk_push,
                 fun hs => ⟨hs, fun _ => ⟨[], (List.append_nil _).symm⟩⟩⟩
              refine ⟨goodStep_trans (goodStep_trans hpush hstep0) hstep, ?_, ?_, ?_⟩
              · refine List.nodup_cons.mpr ⟨fun hmem' => ?_, hnd⟩
                exact ((hmem p).mp hmem').2.2 (List.mem_cons_self p seen)
              · exact List.Sublist.cons₂ p hsub
              · intro q
                constructor
                · intro hq
                  rcases List.mem_cons.mp hq with rfl | hq'
                  · exact ⟨hp.1, List.mem_cons_self q rest, hp.2⟩
                  · obtain ⟨hq1, hq2, hq3⟩ := (hmem q).mp hq'
                    exact ⟨hq1, List.mem_cons_of_mem p hq2,
                      fun hmem'' => hq3 (List.mem_cons_of_mem p hmem'')⟩
                · rintro ⟨hq1, hq2, hq3⟩
                  by_cases hqp : q = p
                  · exact hqp ▸ List.mem_cons_self p ps3
                  · rcases List.mem_cons.mp hq2 with rfl | hq2'
                    · exact absurd rfl hqp
                    · refine List.mem_cons_of_mem p ((hmem q).mpr ⟨hq1, hq2', ?_⟩)
                      intro hq4
                      rcases List.mem_cons.mp hq4 with rfl | hq5
                      · exact hqp rfl
                      · exact hq3 hq5
    · rw [if_neg hp] at h
      obtain ⟨hstep, hnd, hsub, hmem⟩ :=
        processCandidates_ok env ws fuel rest seen st st' ps h
      push_neg at hp
      refine ⟨hstep, hnd, hsub.trans (List.sublist_cons_self p rest), fun q => ?_⟩
      rw [hmem q]
      constructor
      · rintro ⟨hq1, hq2, hq3⟩
        exact ⟨hq1, List.mem_cons_of_mem p hq2, hq3⟩
      · rintro ⟨hq1, hq2, hq3⟩
        rcases List.mem_cons.mp hq2 with rfl | hq2'
        · exact absurd (hp hq1) hq3
        · exact ⟨hq1, hq2', hq3⟩

/-- The candidate loop parses exactly the first-occurrence selection of the
candidates, in that order: the returned path list is the selection, the final
state (rcfiles and rcoptions alike) is that of parsing the selected paths
once each in order, and the selected paths appear, in order, among the
filenames of the `RcFile`s the loop added. -/
theorem processCandidates_order (env : Env) (ws : String) (fuel : Nat) :
    ∀ (cands seen : List String) (st st' : ParseState) (ps : List String),
      processCandidates env ws fuel cands seen st = some (.ok (st', ps)) →
      ps = firstOccurrenceSelection seen cands ∧
      parseSeq env ws fuel ps st = some (.ok st') ∧
      ∃ new, st'.rcfiles = st.rcfiles ++ new ∧ ps.Sublist (new.map (·.filename))
  | [], seen, st, st', ps, h => by
    simp only [processCandidates, Option.some.injEq, Except.ok.injEq, Prod.mk.injEq] at h
    obtain ⟨h1, h2⟩ := h
    subst h1 h2
    exact ⟨rfl, rfl, [], (List.append_nil _).symm, List.nil_sublist _⟩
  | p :: rest, seen, st, st', ps, h => by
    rw [processCandidates] at h
    by_cases hp : p ≠ "" ∧ p ∉ seen
    · rw [if_pos hp] at h
      try dsimp only at h
      cases hrec : parse env ws fuel p st.rcfiles.length
          ⟨st.rcfiles ++ [⟨p, st.rcfiles.length⟩], st.rcoptions⟩ [p] with
      | none => rw [hrec] at h; exact absurd h (by simp)
      | some pr =>
        obtain ⟨rres, rstk⟩ := pr
        rw [hrec] at h
        cases rres with
        | error e => exact absurd h (by simp)
        | ok st2 =>
          try dsimp only at h
          cases hrec2 : processCandidates env ws fuel rest (p :: seen) st2 with
          | none => rw [hrec2] at h; exact absurd h (by simp)
          | some r2 =>
            rw [hrec2] at h
            cases r2 with
            | error e => exact absurd h (by simp)
            | ok pr2 =>
              obtain ⟨st3, ps3⟩ := pr2
              simp only [Option.some.injEq, Except.ok.injEq, Prod.mk.injEq] at h
              obtain ⟨h1, h2⟩ := h
              subst h1 h2
              obtain ⟨hsel, hseq, new3, hnew3, hsub3⟩ :=
                processCandidates_order env ws fuel rest (p :: seen) st2 st3 ps3 hrec2
              refine ⟨?_, ?_, ?_⟩
              · rw [firstOccurrenceSelection, if_pos hp, hsel]
              · rw [parseSeq]
                try dsimp only
                rw [hrec]
                exact hseq
              · obtain ⟨_, hok⟩ := parse_good env ws fuel p st.rcfiles.length _ _ _ _ hrec
                obtain ⟨_, ⟨d2, hd2⟩, _, _⟩ := hok st2 rfl
                refine ⟨⟨p, st.rcfiles.length⟩ :: (d2 ++ new3), ?_, ?_⟩
                · rw [hnew3, hd2]
                  simp [List.append_assoc]
                · rw [List.map_cons, List.map_append]
                  exact List.Sublist.cons₂ p
                    (hsub3.trans (List.sublist_append_right _ _))
    · rw [if_neg hp] at h
      obtain ⟨hsel, hseq, hnew⟩ :=
        processCandidates_order env ws fuel rest seen st st' ps h
      exact ⟨by rw [firstOccurrenceSelection, if_neg hp, hsel], hseq, hnew⟩

/-! ## Startup-phase traces -/

theorem phaseA_origin (env : Env) (bl : List RcFile) :
    ∀ (l : List RcOption) (s : StartupOptionsState) s' tr,
      phaseA env bl s l = .ok (s', tr) → ∀ cl ∈ tr, cl.origin = .rcFile
  | [], s, s', tr, h => by
    simp only [phaseA, Except.ok.injEq, Prod.mk.injEq] at h
    rw [← h.2]
    intro cl hcl
    exact absurd hcl (List.not_mem_nil cl)
  | [a], s, s', tr, h => by
    rw [phaseA] at h
    split at h
    · try dsimp only at h
      split at h
      · simp only [Except.ok.injEq, Prod.mk.injEq] at h
        rw [← h.2]
        intro cl hcl
        rw [List.mem_singleton.mp hcl]
      · exact absurd h (by simp)
    · simp only [Except.ok.injEq, Prod.mk.injEq] at h
      rw [← h.2]
      intro cl hcl
      exact absurd hcl (List.not_mem_nil cl)
  | a :: b :: rest, s, s', tr, h => by
    rw [phaseA] at h
    try dsimp only at h
    split at h
    · split at h
      · cases hrec : phaseA env bl (env.processArg s a.option b.option
            (rcfileName bl a.rcfile_index)).state rest with
        | error e => rw [hrec] at h; exact absurd h (by simp)
        | ok pr =>
          obtain ⟨s2, tr2⟩ := pr
          rw [hrec] at h
          simp only [Except.ok.injEq, Prod.mk.injEq] at h
          rw [← h.2]
          intro cl hcl
          rcases List.mem_cons.mp hcl with rfl | hcl'
          · rfl
          · exact phaseA_origin env bl rest _ s2 tr2 hrec cl hcl'
      · cases hrec : phaseA env bl (env.processArg s a.option b.option
            (rcfileName bl a.rcfile_index)).state (b :: rest) with
        | error e => rw [hrec] at h; exact absurd h (by simp)
        | ok pr =>
          obtain ⟨s2, tr2⟩ := pr
          rw [hrec] at h
          simp only [Except.ok.injEq, Prod.mk.injEq] at h
          rw [← h.2]
          intro cl hcl
          rcases List.mem_cons.mp hcl with rfl | hcl'
          · rfl
          · exact phaseA_origin env bl (b :: rest) _ s2 tr2 hrec cl hcl'
    · exact absurd h (by simp)

theorem phaseB_origin (env : Env) :
    ∀ (l : List String) (s : StartupOptionsState) (i : Nat) s' i' tr,
      phaseB env s i l = .ok (s', i', tr) → ∀ cl ∈ tr, cl.origin = .commandLine
  | [], s, i, s', i', tr, h => by
    simp only [phaseB, Except.ok.injEq, Prod.mk.injEq] at h
    rw [← h.2.2]
    intro cl hcl
    exact absurd hcl (List.not_mem_nil cl)
  | [a], s, i, s', i', tr, h => by
    rw [phaseB] at h
    split at h
    · try dsimp only at h
      split at h
      · simp only [Except.ok.injEq, Prod.mk.injEq] at h
        rw [← h.2.2]
        intro cl hcl
        rw [List.mem_singleton.mp hcl]
      · exact absurd h (by simp)
    · simp only [Except.ok.injEq, Prod.mk.injEq] at h
      rw [← h.2.2]
      intro cl hcl
      exact absurd hcl (List.not_mem_nil cl)
  | a :: b :: rest, s, i, s', i', tr, h => by
    rw [phaseB] at h
    split at h
    · try dsimp only at h
      split at h
      · split at h
        · cases hrec : phaseB env (env.processArg s a b "").state (i + 2) rest with
          | error e => rw [hrec] at h; exact absurd h (by simp)
          | ok pr =>
            obtain ⟨s2, i2, tr2⟩ := pr
            rw [hrec] at h
            simp only [Except.ok.injEq, Prod.mk.injEq] at h
            rw [← h.2.2]
            intro cl hcl
            rcases List.mem_cons.mp hcl with rfl | hcl'
            · rfl
            · exact phaseB_origin env rest _ (i + 2) s2 i2 tr2 hrec cl hcl'
        · cases hrec : phaseB env (env.processArg s a b "").state (i + 1) (b :: rest) with
          | error e => rw [hrec] at h; exact absurd h (by simp)
          | ok pr =>
            obtain ⟨s2, i2, tr2⟩ := pr
            rw [hrec] at h
            simp only [Except.ok.injEq, Prod.mk.injEq] at h
            rw [← h.2.2]
            intro cl hcl
            rcases List.mem_cons.mp hcl with rfl | hcl'
            · rfl
            · exact phaseB_origin env (b :: rest) _ (i + 1) s2 i2 tr2 hrec cl hcl'
      · exact absurd h (by simp)
    · simp only [Except.ok.injEq, Prod.mk.injEq] at h
      rw [← h.2.2]
      intro cl hcl
      exact absurd hcl (List.not_mem_nil cl)

/-! ## The blazerc-flag scan -/

theorem scanUm_false (a : String) : scanUm false a = false := by
  simp [scanUm]

theorem scanUm_hit {a : String} (ha : a = "--nomaster_blazerc" ∨ a = "--nomaster_bazelrc") :
    ∀ um : Bool, scanUm um a = false := by
  intro um
  cases um with
  | true => exact if_pos ⟨rfl, ha⟩
  | false => exact scanUm_false a

theorem scanArgs_false : ∀ (l : List String) (bl : Option String),
    (scanArgs bl false l).2 = false
  | [], _ => rfl
  | a :: rest, bl => by
    rw [scanArgs, scanUm_false]
    exact scanArgs_false rest _

theorem scanArgs_nomaster : ∀ (l : List String) (bl : Option String) (um : Bool),
    (∃ a ∈ l, a = "--nomaster_blazerc" ∨ a = "--nomaster_bazelrc") →
    (scanArgs bl um l).2 = false
  | [], _, _, h => by simp at h
  | a :: rest, bl, um, h => by
    rw [scanArgs]
    by_cases ha : a = "--nomaster_blazerc" ∨ a = "--nomaster_bazelrc"
    · rw [scanUm_hit ha um]
      exact scanArgs_false rest _
    · obtain ⟨b, hb, hb'⟩ := h
      rcases List.mem_cons.mp hb with rfl | hb''
      · exact absurd hb' ha
      · exact scanArgs_nomaster rest _ _ ⟨b, hb'', hb'⟩

/-! ## Small list and string helpers -/

theorem getD_eq_headD_drop {α : Type} : ∀ (l : List α) (n : Nat) (d : α),
    l.getD n d = (l.drop n).headD d
  | [], n, d => by simp
  | a :: l, 0, d => rfl
  | a :: l, n + 1, d => by
    rw [List.drop_succ_cons]
    exact getD_eq_headD_drop l n d

theorem string_foldl_append_shift : ∀ (l : List String) (acc : String),
    l.foldl (· ++ ·) acc = acc ++ l.foldl (· ++ ·) ""
  | [], acc => (String.append_empty acc).symm
  | a :: l, acc => by
    rw [List.foldl_cons, List.foldl_cons, string_foldl_append_shift l (acc ++ a),
      string_foldl_append_shift l ("" ++ a), String.empty_append, String.append_assoc]

theorem string_join_cons (a : String) (l : List String) :
    String.join (a :: l) = a ++ String.join l := by
  rw [String.join, String.join, List.foldl_cons, string_foldl_append_shift, String.empty_append]

theorem cycleReport_join : ∀ (stack : List String) (acc : String),
    stack.foldl (fun a e => a ++ "  " ++ e ++ "\n") acc =
      acc ++ String.join (stack.map fun e => "  " ++ e ++ "\n")
  | [], acc => by
    rw [List.foldl_nil, List.map_nil, show String.join [] = "" from rfl, String.append_empty]
  | e :: stack, acc => by
    rw [List.foldl_cons, cycleReport_join stack (acc ++ "  " ++ e ++ "\n"),
      List.map_cons, string_join_cons]
    simp [String.append_assoc]

theorem cycleReport_eq (stack : List String) :
    cycleReport stack = String.join (stack.map fun e => "  " ++ e ++ "\n") := by
  rw [cycleReport, cycleReport_join stack "", String.empty_append]

/-! ## Claims -/

/-- C1: if an `import` line resolves to a path already present in the
current import stack, `Parse` fails with exit code `BAD_ARGV` and an error
message listing every entry of the import stack in order, one per line; and
two independent rc files that both import the same third file from disjoint
chains of imports parse successfully (a shared import is not a cycle). -/
theorem claim_C1 :
    (∀ (f : String → Nat → ParseState → List String → ParseRes) (env : Env)
        (ws fn : String) (idx : Nat) (line w path : String) (rest : List String)
        (st : ParseState) (stack : List String),
      tokenize (stripWhitespace line) = ["import", w] →
      resolveImportPath env ws w = some path →
      path ∈ stack →
      parseLinesWith f env ws fn idx (line :: rest) st stack =
        some (.error (.badArgv, "Import loop detected:\n" ++
          String.join (stack.map fun e => "  " ++ e ++ "\n")), stack)) ∧
    processCandidates envShared "" 3 ["t1", "t2"] [] ⟨[], []⟩ =
      some (.ok (⟨[⟨"t1", 0⟩, ⟨"third", 1⟩, ⟨"t2", 2⟩, ⟨"third", 3⟩],
        [("build", [⟨1, "--x"⟩, ⟨3, "--x"⟩])]⟩, ["t1", "t2"])) := by
  constructor
  · intro f env ws fn idx line w path rest st stack htok hres hmem
    have hl : ¬ (stripWhitespace line).data = [] := by
      intro hl
      have hemp : tokenize (stripWhitespace line) = [] := by
        rw [tokenize, hl]
        rfl
      rw [hemp] at htok
      exact absurd htok (by simp)
    rw [parseLinesWith]
    simp only
    rw [if_neg hl, htok]
    try dsimp only
    rw [if_pos rfl]
    try dsimp only
    rw [hres]
    try dsimp only
    rw [if_pos hmem, cycleReport_eq]
  · rfl

/-- C1 witness: the cycle branch taken on a concrete import line whose
resolved path is already on the stack. -/
theorem claim_C1_witness :
    parseLinesWith (fun _ _ _ _ => none) envBroken "" "f" 0 ["import b"] ⟨[], []⟩ ["b"] =
      some (.error (.badArgv, "Import loop detected:\n" ++
        String.join (["b"].map fun e => "  " ++ e ++ "\n")), ["b"]) :=
  claim_C1.1 (fun _ _ _ _ => none) envBroken "" "f" 0 "import b" "b" "b" [] ⟨[], []⟩ ["b"]
    rfl rfl (by decide)

/-- C2: options are appended in strict file-then-line-then-token order.
(A) A successful parse only appends to each command's vector.
(B) For a file with no `import` lines, the parse succeeds and the emitted
order is exactly the file's line order with tokens left to right (blank and
comment-only lines removed), each token tagged with the file's index.
(C) An `import` line splices the imported file's whole parse in at the point
of the `import` line: the parses compose sequentially, and the imported
file's options land before any option from the importer's subsequent lines. -/
theorem claim_C2 :
    (∀ (env : Env) (ws : String) (fuel : Nat) (p : String) (i : Nat)
        (st : ParseState) (stack : List String) (st' : ParseState) (stk' : List String),
      parse env ws fuel p i st stack = some (.ok st', stk') →
      RcMapSorted st.rcoptions →
      ∀ c, ∃ d, lookupRc st'.rcoptions c = lookupRc st.rcoptions c ++ d) ∧
    (∀ (env : Env) (ws p : String) (fuel i : Nat) (st : ParseState)
        (stack : List String) (contents : String),
      env.fs p = some contents →
      (∀ l ∈ splitLines (normalizeContinuations contents),
        (tokenize (stripWhitespace l)).head? ≠ some "import") →
      parse env ws (fuel + 1) p i st stack =
        some (.ok ⟨st.rcfiles,
          (flatEmissions (splitLines (normalizeContinuations contents))).foldl
            (fun m e => rcPush m e.1 ⟨i, e.2⟩) st.rcoptions⟩, stack) ∧
      (RcMapSorted st.rcoptions →
        ∀ c, lookupRc ((flatEmissions (splitLines (normalizeContinuations contents))).foldl
            (fun m e => rcPush m e.1 ⟨i, e.2⟩) st.rcoptions) c =
          lookupRc st.rcoptions c ++
            (flatEmissions (splitLines (normalizeContinuations contents))).filterMap
              (fun e => if e.1 = c then some (⟨i, e.2⟩ : RcOption) else none))) ∧
    (∀ (env : Env) (ws fn : String) (idx fuel : Nat) (line w path : String)
        (rest : List String) (st st1 : ParseState) (stack stk1 : List String),
      tokenize (stripWhitespace line) = ["import", w] →
      resolveImportPath env ws w = some path →
      path ∉ stack →
      parse env ws fuel path st.rcfiles.length
        ⟨st.rcfiles ++ [⟨path, st.rcfiles.length⟩], st.rcoptions⟩ (stack ++ [path]) =
          some (.ok st1, stk1) →
      parseLinesWith (parse env ws fuel) env ws fn idx (line :: rest) st stack =
        parseLinesWith (parse env ws fuel) env ws fn idx rest st1 stk1.dropLast ∧
      (RcMapSorted st.rcoptions →
        ∀ (res : Except Err ParseState) (stk2 : List String) (st2 : ParseState),
          parseLinesWith (parse env ws fuel) env ws fn idx rest st1 stk1.dropLast =
            some (res, stk2) → res = .ok st2 →
          ∀ c, ∃ d1 d2, lookupRc st1.rcoptions c = lookupRc st.rcoptions c ++ d1 ∧
            lookupRc st2.rcoptions c = lookupRc st.rcoptions c ++ (d1 ++ d2))) := by
  refine ⟨?_, ?_, ?_⟩
  · intro env ws fuel p i st stack st' stk' h hs c
    obtain ⟨_, hok⟩ := parse_good env ws fuel p i st stack _ stk' h
    obtain ⟨_, _, _, hopt⟩ := hok st' rfl
    exact (hopt hs).2 c
  · intro env ws p fuel i st stack contents hfs hni
    constructor
    · rw [parse, hfs]
      exact parseLinesWith_noImport env ws p i _ st stack hni
    · intro hs
      exact fun c => (lookupRc_pushEmissions _ st.rcoptions hs).2 c
  · intro env ws fn idx fuel line w path rest st st1 stack stk1 htok hres hmem hrec
    have hl : ¬ (stripWhitespace line).data = [] := by
      intro hl
      have hemp : tokenize (stripWhitespace line) = [] := by
        rw [tokenize, hl]
        rfl
      rw [hemp] at htok
      exact absurd htok (by simp)
    constructor
    · rw [parseLinesWith]
      simp only
      rw [if_neg hl, htok]
      try dsimp only
      rw [if_pos rfl]
      try dsimp only
      rw [hres]
      try dsimp only
      rw [if_neg hmem, hrec]
    · intro hs res stk2 st2 hrest hok2
      obtain ⟨_, hok⟩ := parse_good env ws fuel path st.rcfiles.length _ _ _ _ hrec
      obtain ⟨_, _, _, hopt1⟩ := hok st1 rfl
      obtain ⟨hs1, hd1⟩ := hopt1 hs
      obtain ⟨_, hok'⟩ := parseLinesWith_good (parse_good env ws fuel) env ws fn idx
        rest st1 stk1.dropLast res stk2 hrest
      obtain ⟨_, _, _, hopt2⟩ := hok' st2 hok2
      obtain ⟨hs2, hd2⟩ := hopt2 hs1
      intro c
      obtain ⟨d1, h1⟩ := hd1 c
      obtain ⟨d2, h2⟩ := hd2 c
      exact ⟨d1, d2, h1, by rw [h2, h1, List.append_assoc]⟩

/-- C2 witness: the no-import characterisation applied to the concrete user
rc file of the worked scenario. -/
theorem claim_C2_witness :
    parse envUserRc "/ws" 2 "/ws/bazelrc" 0 ⟨[], []⟩ ["/ws/bazelrc"] =
      some (.ok ⟨[], (flatEmissions (splitLines (normalizeContinuations
        "startup --bar\nbuild --opt=v\n"))).foldl
          (fun m e => rcPush m e.1 ⟨0, e.2⟩) []⟩, ["/ws/bazelrc"]) :=
  (claim_C2.2.1 envUserRc "/ws" "/ws/bazelrc" 1 0 ⟨[], []⟩ ["/ws/bazelrc"]
    "startup --bar\nbuild --opt=v\n" rfl (by decide)).1

/-- C4 counterexample: the claim that the import stack is restored on *every*
exit path fails on the error path.  Parsing file `a` (which imports the
unreadable file `b`) fails, and the returned stack still holds the pushed
entry `b`: it is `["a", "b"]`, not the entry stack `["a"]`.  (In C++ the
early `return` skips the `pop_back`.) -/
theorem claim_C4_counterexample :
    parse envBroken "" 2 "a" 0 ⟨[], []⟩ ["a"] =
      some (.error (.internalError, "Unexpected error reading .blazerc file 'b'"),
        ["a", "b"]) ∧ (["a", "b"] : List String) ≠ ["a"] :=
  ⟨rfl, by decide⟩

/-- C4 (amended): the import stack is restored to its entry contents on every
*successful* exit (the pushed filename is popped, and more generally the
entry stack is always a leading part of the returned stack); on an error exit
of an import's recursive parse the error propagates immediately *without*
popping, so the pushed filename is still on the returned stack, which the
failing call chain abandons. -/
theorem claim_C4 :
    (∀ (env : Env) (ws : String) (fuel : Nat) (p : String) (i : Nat)
        (st : ParseState) (stack : List String) (res : Except Err ParseState)
        (stk' : List String),
      parse env ws fuel p i st stack = some (res, stk') →
      stack <+: stk' ∧ ∀ st', res = .ok st' → stk' = stack) ∧
    (∀ (env : Env) (ws fn : String) (idx fuel : Nat) (line w path : String)
        (rest : List String) (st : ParseState) (stack : List String) (e : Err)
        (stk : List String),
      tokenize (stripWhitespace line) = ["import", w] →
      resolveImportPath env ws w = some path →
      path ∉ stack →
      parse env ws fuel path st.rcfiles.length
        ⟨st.rcfiles ++ [⟨path, st.rcfiles.length⟩], st.rcoptions⟩ (stack ++ [path]) =
          some (.error e, stk) →
      parseLinesWith (parse env ws fuel) env ws fn idx (line :: rest) st stack =
        some (.error e, stk) ∧ stack ++ [path] <+: stk) := by
  constructor
  · intro env ws fuel p i st stack res stk' h
    obtain ⟨hpre, hok⟩ := parse_good env ws fuel p i st stack res stk' h
    exact ⟨hpre, fun st' h' => (hok st' h').1⟩
  · intro env ws fn idx fuel line w path rest st stack e stk htok hres hmem hrec
    have hl : ¬ (stripWhitespace line).data = [] := by
      intro hl
      have hemp : tokenize (stripWhitespace line) = [] := by
        rw [tokenize, hl]
        rfl
      rw [hemp] at htok
      exact absurd htok (by simp)
    constructor
    · rw [parseLinesWith]
      simp only
      rw [if_neg hl, htok]
      try dsimp only
      rw [if_pos rfl]
      try dsimp only
      rw [hres]
      try dsimp only
      rw [if_neg hmem, hrec]
    · exact (parse_good env ws fuel path st.rcfiles.length _ _ _ _ hrec).1

/-- C4 witness: the no-pop error path, concretely: importing the unreadable
file `b` leaves `b` on the stack in the propagated result. -/
theorem claim_C4_witness :
    parseLinesWith (parse envBroken "" 1) envBroken "" "a" 0 ["import b"] ⟨[], []⟩ ["a"] =
      some (.error (.internalError, "Unexpected error reading .blazerc file 'b'"),
        ["a", "b"]) ∧ (["a"] : List String) ++ ["b"] <+: ["a", "b"] :=
  claim_C4.2 envBroken "" "a" 0 1 "import b" "b" "b" [] ⟨[], []⟩ ["a"]
    (.internalError, "Unexpected error reading .blazerc file 'b'") ["a", "b"]
    rfl rfl (by decide) rfl

/-- The drop case of the final rc-sourced startup entry: no validator call,
no error, state unchanged. -/
theorem phaseA_singleton_drop (env : Env) (bl : List RcFile) (s : StartupOptionsState)
    (a : RcOption) (h : ¬ IsArg a.option = true) : phaseA env bl s [a] = .ok (s, []) := by
  rw [phaseA, if_neg h]

/-- C3: whenever `ParseStartupOptions` succeeds, its `ProcessArg` trace splits
into the rc-file-sourced calls followed by the command-line calls: every
rc-file call happens before every command-line call, so command-line startup
options are applied after (and override) same-named rc-file ones. -/
theorem claim_C3 :
    ∀ (env : Env) (bl : List RcFile) (rc : List (String × List RcOption))
      (s0 : StartupOptionsState) (args : List String) (s' : StartupOptionsState)
      (sa : Nat) (tr : List ValidatorCall),
      parseStartupOptionsFn env bl rc s0 args = .ok (s', sa, tr) →
      ∃ t1 t2, tr = t1 ++ t2 ∧ (∀ cl ∈ t1, cl.origin = .rcFile) ∧
        ∀ cl ∈ t2, cl.origin = .commandLine := by
  intro env bl rc s0 args s' sa tr h
  rw [parseStartupOptionsFn] at h
  cases hA : phaseA env bl s0 (lookupRc rc "startup") with
  | error e => rw [hA] at h; exact absurd h (by simp)
  | ok pr =>
    obtain ⟨s1, tr1⟩ := pr
    rw [hA] at h
    dsimp only at h
    by_cases hargs : args = []
    · rw [if_pos hargs] at h
      simp only [Except.ok.injEq, Prod.mk.injEq] at h
      refine ⟨tr1, [], by rw [List.append_nil]; exact h.2.2.symm,
        phaseA_origin env bl _ s0 s1 tr1 hA, by simp⟩
    · rw [if_neg hargs] at h
      cases hB : phaseB env s1 1 (args.drop 1) with
      | error e => rw [hB] at h; exact absurd h (by simp)
      | ok pr2 =>
        obtain ⟨s2, i, tr2⟩ := pr2
        rw [hB] at h
        simp only [Except.ok.injEq, Prod.mk.injEq] at h
        exact ⟨tr1, tr2, h.2.2.symm, phaseA_origin env bl _ s0 s1 tr1 hA,
          phaseB_origin env _ s1 1 s2 i tr2 hB⟩

/-- C3 witness: the worked scenario's startup resolution, whose trace is the
single rc-file call. -/
theorem claim_C3_witness :
    ∃ t1 t2, ([⟨.rcFile, "--bar", "", "/ws/bazelrc"⟩] : List ValidatorCall) = t1 ++ t2 ∧
      (∀ cl ∈ t1, cl.origin = .rcFile) ∧ ∀ cl ∈ t2, cl.origin = .commandLine :=
  claim_C3 envUserRc [⟨"/ws/bazelrc", 0⟩]
    [("build", [⟨0, "--opt=v"⟩]), ("startup", [⟨0, "--bar"⟩])] ⟨false⟩
    ["prog", "mycmd"] ⟨false⟩ 0 [⟨.rcFile, "--bar", "", "/ws/bazelrc"⟩] rfl

/-- C5: a final rc-sourced startup entry that was not consumed as a
space-separated value reaches the validator only if it starts with `-` and is
not a help spelling (`IsArg`); a failing final entry is dropped silently —
no validator call, no error — and startup parsing behaves exactly as if the
entry were absent. -/
theorem claim_C5 :
    (∀ (env : Env) (bl : List RcFile) (s : StartupOptionsState) (a : RcOption),
      ¬ IsArg a.option = true → phaseA env bl s [a] = .ok (s, [])) ∧
    (∀ (env : Env) (bl : List RcFile) (s : StartupOptionsState) (a : RcOption),
      IsArg a.option = true →
      phaseA env bl s [a] =
        (if (env.processArg s a.option "" (rcfileName bl a.rcfile_index)).exit = .success then
          .ok ((env.processArg s a.option "" (rcfileName bl a.rcfile_index)).state,
            [⟨.rcFile, a.option, "", rcfileName bl a.rcfile_index⟩])
        else .error ((env.processArg s a.option "" (rcfileName bl a.rcfile_index)).exit,
          (env.processArg s a.option "" (rcfileName bl a.rcfile_index)).errMsg))) ∧
    (∀ (env : Env) (bl : List RcFile) (s0 : StartupOptionsState) (a : RcOption)
        (args : List String),
      ¬ IsArg a.option = true →
      parseStartupOptionsFn env bl [("startup", [a])] s0 args =
        parseStartupOptionsFn env bl [] s0 args) := by
  refine ⟨phaseA_singleton_drop, ?_, ?_⟩
  · intro env bl s a h
    rw [phaseA, if_pos h]
  · intro env bl s0 a args h
    rw [parseStartupOptionsFn, parseStartupOptionsFn,
      show lookupRc [("startup", [a])] "startup" = [a] from rfl,
      show lookupRc [] "startup" = [] from rfl,
      phaseA_singleton_drop env bl s0 a h,
      show phaseA env bl s0 [] = .ok (s0, []) from rfl]

/-- C5 witness: a dangling non-option final entry is dropped with no call. -/
theorem claim_C5_witness :
    phaseA baseEnv [] ⟨false⟩ [⟨0, "dangling"⟩] = .ok (⟨false⟩, []) :=
  claim_C5.1 baseEnv [] ⟨false⟩ ⟨0, "dangling"⟩ (by decide)

/-- C6: on every successful `ParseOptions` run the resolved command is the
raw argument just past the startup-option boundary (`startup_args_ + 1`);
and whenever the phases before command determination succeed but no raw
argument follows the boundary, `ParseOptions` returns SUCCESS with an empty
command and performs no argument-vector assembly (`CommandArguments` stays
empty). -/
theorem claim_C6 :
    (∀ (env : Env) (finder : String → String → List String → List String)
        (fuel : Nat) (args : List String) (ws cwd : String) (out : ProcResult),
      parseOptions env finder fuel args ws cwd = some (.ok out) →
      out.command = (args.drop (out.startupArgs + 1)).headD "" ∧
      (args.length ≤ out.startupArgs + 1 →
        out.command = "" ∧ out.commandArguments = [])) ∧
    (∀ (env : Env) (finder : String → String → List String → List String)
        (fuel : Nat) (args : List String) (ws cwd userRc : String)
        (stp : ParseState) (ps : List String) (s2 : StartupOptionsState) (sa : Nat)
        (tr : List ValidatorCall),
      (env.validate args).1 = .success →
      findUserBlazerc env (scanArgs none true (args.drop 1)).1 env.rcBasename ws =
        .ok userRc →
      processCandidates env ws fuel
        ((if (scanArgs none true (args.drop 1)).2 then finder ws cwd args else [])
          ++ [userRc]) [] ⟨[], []⟩ = some (.ok (stp, ps)) →
      parseStartupOptionsFn env stp.rcfiles stp.rcoptions env.startup0 args =
        .ok (s2, sa, tr) →
      args.length ≤ sa + 1 →
      parseOptions env finder fuel args ws cwd =
        some (.ok ⟨stp.rcfiles, stp.rcoptions, "", [], sa, s2, tr⟩)) := by
  constructor
  · intro env finder fuel args ws cwd out h
    rw [parseOptions] at h
    dsimp only at h
    split at h
    · exact absurd h (by simp)
    · split at h
      · exact absurd h (by simp)
      · split at h
        · exact absurd h (by simp)
        · exact absurd h (by simp)
        · split at h
          · exact absurd h (by simp)
          · split at h
            · rename_i sa _ hge
              simp only [Option.some.injEq, Except.ok.injEq] at h
              rw [← h]
              dsimp only
              refine ⟨?_, fun _ => ⟨rfl, rfl⟩⟩
              rw [List.drop_eq_nil_of_le (by omega)]
              rfl
            · rename_i sa _ hge
              simp only [Option.some.injEq, Except.ok.injEq] at h
              rw [← h]
              dsimp only
              constructor
              · exact getD_eq_headD_drop args _ ""
              · intro hle
                exact absurd hle (by omega)
  · intro env finder fuel args ws cwd userRc stp ps s2 sa tr hv hub hpc hpso hle
    rw [parseOptions]
    dsimp only
    rw [if_neg (fun hne => hne hv), hub]
    dsimp only
    rw [hpc]
    dsimp only
    rw [hpso]
    dsimp only
    rw [if_pos (by omega)]

/-- C6 witness: the worked scenario invoked with no command token: SUCCESS,
empty command, empty argument vector. -/
theorem claim_C6_witness :
    parseOptions envUserRc (fun _ _ _ => []) 3 ["prog"] "/ws" "/cwd" =
      some (.ok ⟨[⟨"/ws/bazelrc", 0⟩],
        [("build", [⟨0, "--opt=v"⟩]), ("startup", [⟨0, "--bar"⟩])],
        "", [], 0, ⟨false⟩, [⟨.rcFile, "--bar", "", "/ws/bazelrc"⟩]⟩) :=
  claim_C6.2 envUserRc (fun _ _ _ => []) 3 ["prog"] "/ws" "/cwd" "/ws/bazelrc"
    ⟨[⟨"/ws/bazelrc", 0⟩], [("build", [⟨0, "--opt=v"⟩]), ("startup", [⟨0, "--bar"⟩])]⟩
    ["/ws/bazelrc"] ⟨false⟩ 0 [⟨.rcFile, "--bar", "", "/ws/bazelrc"⟩]
    rfl rfl rfl rfl (by decide)

/-- C7: the worked scenario — the single user rc file holds
`startup --bar` and `build --opt=v`, the raw arguments are
`["prog", "mycmd"]`, and the validator accepts `--bar` — succeeds with
command `mycmd` and exactly one `--default_override=1:build=--opt=v`
among the assembled arguments. -/
theorem claim_C7 :
    (parseOptions envUserRc (fun _ _ _ => []) 3 ["prog", "mycmd"] "/ws" "/cwd").map
      (fun r => match r with
        | .ok out => some (out.command,
            out.commandArguments.count "--default_override=1:build=--opt=v")
        | .error _ => none) = some (some ("mycmd", 1)) := by
  decide

/-- The `continue` on the `startup` key, rephrased as a filter. -/
theorem flatten_skip (g : String × List RcOption → List String) :
    ∀ rc : List (String × List RcOption),
      (rc.map fun kv => if kv.1 = "startup" then [] else g kv).flatten =
      ((rc.filter fun kv => kv.1 ≠ "startup").map g).flatten
  | [] => rfl
  | kv :: rc => by
    simp only [List.map_cons, List.flatten_cons, List.filter_cons]
    by_cases hkv : kv.1 = "startup"
    · rw [if_pos hkv, if_neg (by simp [hkv]), flatten_skip g rc, List.nil_append]
    · rw [if_neg hkv, if_pos (by simp [hkv]), List.map_cons, List.flatten_cons,
        flatten_skip g rc]

/-- C8: the assembler emits, in exactly this order: `--rc_source=client` and
the two index-0 `--default_override=0:common=...` terminal entries; one
`--rc_source=<path>` per `RcFile` in index order (position `k` holds the file
of index `k`); the `--default_override=<index+1>:<command>=<option>` entries
for every command except `startup`, options in stored order; then either
`--ignore_client_env` (batch) or one `--client_env=NAME=value` per
environment entry with `PATH` values converted as a path list and `TMP`
values as a single path; then `--client_cwd=<converted cwd>`; and finally
`--emacs` exactly when an Emacs terminal is detected. -/
theorem claim_C8 :
    ∀ (env : Env) (batch : Bool) (cwd : String) (bl : List RcFile)
      (rc : List (String × List RcOption)),
      IndexOk bl →
      (addRcfileArgsAndOptions env batch cwd bl rc =
        ["--rc_source=client",
         "--default_override=0:common=--isatty=" ++
           (if env.isStandardTerminal then "1" else "0"),
         "--default_override=0:common=--terminal_columns=" ++
           toString env.terminalColumns]
        ++ bl.map (fun f => "--rc_source=" ++ env.convertPath f.filename)
        ++ ((rc.filter fun kv => kv.1 ≠ "startup").map fun kv =>
             kv.2.map fun o => "--default_override=" ++ toString (o.rcfile_index + 1)
               ++ ":" ++ kv.1 ++ "=" ++ o.option).flatten
        ++ (if batch then ["--ignore_client_env"]
            else env.environ.map fun e => "--client_env=" ++ rewriteEnvEntry env e)
        ++ ["--client_cwd=" ++ env.convertPath cwd]
        ++ (if env.isEmacsTerminal then ["--emacs"] else [])) ∧
      (∀ k, (hk : k < bl.length) → (bl.getD k ⟨"", 0⟩).index = k) ∧
      (∀ v, rewriteEnvEntry env ("PATH=" ++ v) = "PATH=" ++ env.convertPathList v) ∧
      (∀ v, rewriteEnvEntry env ("TMP=" ++ v) = "TMP=" ++ env.convertPath v) := by
  intro env batch cwd bl rc hidx
  refine ⟨?_, ?_, fun v => rfl, fun v => rfl⟩
  · rw [addRcfileArgsAndOptions, flatten_skip]
  · intro k hk
    rw [List.getD_eq_getElem bl ⟨"", 0⟩ hk]
    exact hidx k hk

/-- C8 witness: the assembler on a concrete environment and a one-file,
one-command state. -/
theorem claim_C8_witness :
    addRcfileArgsAndOptions baseEnv false "/cwd" [⟨"/rc", 0⟩]
        [("build", [⟨0, "--a"⟩]), ("startup", [⟨0, "--s"⟩])] =
      ["--rc_source=client",
       "--default_override=0:common=--isatty=" ++
         (if baseEnv.isStandardTerminal then "1" else "0"),
       "--default_override=0:common=--terminal_columns=" ++
         toString baseEnv.terminalColumns]
      ++ ([⟨"/rc", 0⟩] : List RcFile).map
           (fun f => "--rc_source=" ++ baseEnv.convertPath f.filename)
      ++ ((([("build", [⟨0, "--a"⟩]), ("startup", [⟨0, "--s"⟩])] :
            List (String × List RcOption)).filter fun kv => kv.1 ≠ "startup").map fun kv =>
           kv.2.map fun o => "--default_override=" ++ toString (o.rcfile_index + 1)
             ++ ":" ++ kv.1 ++ "=" ++ o.option).flatten
      ++ (if false then ["--ignore_client_env"]
          else baseEnv.environ.map fun e => "--client_env=" ++ rewriteEnvEntry baseEnv e)
      ++ ["--client_cwd=" ++ baseEnv.convertPath "/cwd"]
      ++ (if baseEnv.isEmacsTerminal then ["--emacs"] else []) :=
  (claim_C8 baseEnv false "/cwd" [⟨"/rc", 0⟩]
    [("build", [⟨0, "--a"⟩]), ("startup", [⟨0, "--s"⟩])]
    (by
      intro k hk
      have hk0 : k = 0 := (by simpa using hk)
      subst hk0
      rfl)).1

/-- C9: when `--nomaster_blazerc` or `--nomaster_bazelrc` occurs anywhere
after the program name, the Candidate Path Finder is never consulted: the
outcome of `ParseOptions` does not depend on it at all. -/
theorem claim_C9 :
    ∀ (env : Env) (f1 f2 : String → String → List String → List String)
      (fuel : Nat) (args : List String) (ws cwd : String),
      (∃ a ∈ args.drop 1, a = "--nomaster_blazerc" ∨ a = "--nomaster_bazelrc") →
      parseOptions env f1 fuel args ws cwd = parseOptions env f2 fuel args ws cwd := by
  intro env f1 f2 fuel args ws cwd h
  have hum := scanArgs_nomaster (args.drop 1) none true h
  rw [parseOptions, parseOptions]
  dsimp only
  rw [hum]
  rfl

/-- C9 witness: with `--nomaster_bazelrc` on the command line, two candidate
path finders with different outputs give identical results. -/
theorem claim_C9_witness :
    parseOptions baseEnv (fun _ _ _ => ["x"]) 2 ["prog", "--nomaster_bazelrc"] "/ws" "/cwd" =
      parseOptions baseEnv (fun _ _ _ => []) 2 ["prog", "--nomaster_bazelrc"] "/ws" "/cwd" :=
  claim_C9 baseEnv (fun _ _ _ => ["x"]) (fun _ _ _ => []) 2
    ["prog", "--nomaster_bazelrc"] "/ws" "/cwd" (by decide)

/-- C10: the candidate loop skips empty paths entirely and parses a repeated
path only once, at its first occurrence: the parsed sequence is exactly the
first-occurrence selection of the non-empty candidates, in candidate order
(hence duplicate-free, a subsequence of the candidates, and containing
exactly the non-empty candidates); the final state — `rcfiles` and
`rcoptions` alike — is that of parsing the selected paths once each in that
order, so duplicate candidates never produce duplicate `RcFile`s or
duplicate options; the selected paths appear in order among the `RcFile`
filenames; and every `RcFile` carries the index of its own position, so
indices are assigned sequentially in first-occurrence order. -/
theorem claim_C10 :
    ∀ (env : Env) (ws : String) (fuel : Nat) (cands : List String)
      (st' : ParseState) (ps : List String),
      processCandidates env ws fuel cands [] ⟨[], []⟩ = some (.ok (st', ps)) →
      ps = firstOccurrenceSelection [] cands ∧
      ps.Nodup ∧ ps.Sublist cands ∧ (∀ q, q ∈ ps ↔ q ≠ "" ∧ q ∈ cands) ∧
      parseSeq env ws fuel ps ⟨[], []⟩ = some (.ok st') ∧
      ps.Sublist (st'.rcfiles.map (·.filename)) ∧
      IndexOk st'.rcfiles := by
  intro env ws fuel cands st' ps h
  obtain ⟨hstep, hnd, hsub, hmem⟩ :=
    processCandidates_ok env ws fuel cands [] ⟨[], []⟩ st' ps h
  obtain ⟨hsel, hseq, new, hnew, hsubf⟩ :=
    processCandidates_order env ws fuel cands [] ⟨[], []⟩ st' ps h
  refine ⟨hsel, hnd, hsub, fun q => ?_, hseq, ?_, ?_⟩
  · rw [hmem q]
    simp
  · rw [hnew, List.nil_append]
    exact hsubf
  · refine hstep.2.1 ?_
    intro k hk
    simp at hk

/-- C10 witness: an empty path and a duplicate candidate produce a single
parse, equal to replaying the first-occurrence selection, with sequential
indices. -/
theorem claim_C10_witness :
    (["/ws/bazelrc"] : List String) =
      firstOccurrenceSelection [] ["", "/ws/bazelrc", "/ws/bazelrc"] ∧
    (["/ws/bazelrc"] : List String).Nodup ∧
    (["/ws/bazelrc"] : List String).Sublist ["", "/ws/bazelrc", "/ws/bazelrc"] ∧
    (∀ q, q ∈ (["/ws/bazelrc"] : List String) ↔
      q ≠ "" ∧ q ∈ (["", "/ws/bazelrc", "/ws/bazelrc"] : List String)) ∧
    parseSeq envUserRc "/ws" 2 ["/ws/bazelrc"] ⟨[], []⟩ =
      some (.ok ⟨[⟨"/ws/bazelrc", 0⟩],
        [("build", [⟨0, "--opt=v"⟩]), ("startup", [⟨0, "--bar"⟩])]⟩) ∧
    (["/ws/bazelrc"] : List String).Sublist
      ((⟨[⟨"/ws/bazelrc", 0⟩],
        [("build", [⟨0, "--opt=v"⟩]), ("startup", [⟨0, "--bar"⟩])]⟩ :
          ParseState).rcfiles.map (·.filename)) ∧
    IndexOk (⟨[⟨"/ws/bazelrc", 0⟩],
      [("build", [⟨0, "--opt=v"⟩]), ("startup", [⟨0, "--bar"⟩])]⟩ : ParseState).rcfiles :=
  claim_C10 envUserRc "/ws" 2 ["", "/ws/bazelrc", "/ws/bazelrc"]
    ⟨[⟨"/ws/bazelrc", 0⟩], [("build", [⟨0, "--opt=v"⟩]), ("startup", [⟨0, "--bar"⟩])]⟩
    ["/ws/bazelrc"] rfl

end OptionProcessor
